import Mathlib

/-!
Verification of `apply_basic_markdown_to_docs_requests` (src/main.py).

The function converts a subset of Markdown into a list of Google Docs API
requests.  We embed it shallowly: Python strings become `List Char`
(Python `len` counts code points, as does `List.length`), the request
dictionaries become the inductive `Req`, and the loop over lines becomes a
fold `go` over `splitOnNl`.
-/

namespace GeradorTretp

/-- A Google Docs API request, as built by the converter.  Each constructor
carries exactly the fields the Python code writes into the dictionary. -/
inductive Req where
  | insertText (index : Nat) (text : List Char)
  | insertPageBreak (index : Nat)
  | updateParagraphStyle (startIndex endIndex : Nat) (namedStyleType : String)
  | createParagraphBullets (startIndex endIndex : Nat) (bulletPreset : String)
  | updateTextStyle (startIndex endIndex : Nat) (bold : Bool)
  deriving Repr, DecidableEq

/-- Python whitespace stripped by `str.strip()` (ASCII part). -/
def isPySpace (c : Char) : Bool :=
  c = ' ' || c = '\t' || c = '\n' || c = '\r' || c = Char.ofNat 11 || c = Char.ofNat 12

/-- `line.strip()`: drop whitespace from both ends. -/
def pyStrip (l : List Char) : List Char :=
  ((l.dropWhile isPySpace).reverse.dropWhile isPySpace).reverse

/-- `markdown_content.split('\n')`: split on newline, keeping empty segments;
the empty string yields `[[]]`, matching Python. -/
def splitOnNl : List Char → List (List Char)
  | [] => [[]]
  | c :: rest =>
    if c = '\n' then [] :: splitOnNl rest
    else
      match splitOnNl rest with
      | [] => [[c]]
      | l :: ls => (c :: l) :: ls

/-- Find the first occurrence of the substring `**`: returns the part before
it and the part after it, or `none` when there is no occurrence.  This models
both Python's `"**" in s` test and the scanning done by
`re.finditer(r'\*\*(.*?)\*\*', s)`. -/
def findStars : List Char → Option (List Char × List Char)
  | [] => none
  | [_] => none
  | c :: d :: rest =>
    if c = '*' ∧ d = '*' then some ([], rest)
    else (findStars (d :: rest)).map (fun p => (c :: p.1, p.2))

theorem findStars_shorter {s p r : List Char} (h : findStars s = some (p, r)) :
    r.length < s.length := by
  induction s generalizing p r with
  | nil => simp [findStars] at h
  | cons c rest ih =>
    match rest with
    | [] => simp [findStars] at h
    | d :: rest2 =>
      rw [findStars] at h
      split at h
      · simp only [Option.some.injEq, Prod.mk.injEq] at h
        obtain ⟨hp, hr⟩ := h
        subst hr
        simp only [List.length_cons]
        omega
      · simp only [Option.map_eq_some'] at h
        obtain ⟨⟨p2, r2⟩, hfind, heq⟩ := h
        simp only [Prod.mk.injEq] at heq
        obtain ⟨hp, hr⟩ := heq
        subst hr
        have := ih hfind
        simp only [List.length_cons] at this ⊢
        omega

/-- Fuel-indexed recursion computing the segments found by
`re.finditer(r'\*\*(.*?)\*\*', s)` together with the surrounding plain text,
exactly as the `parts` list is built in the Python loop: plain prefixes are
kept only when nonempty, each lazily-matched group becomes a bold part, and
the tail after the last match (or the whole string when no match exists) is
one plain part.  Each match consumes at least four characters, so a fuel of
`s.length` always suffices; the fuel only makes the recursion structural. -/
def boldPartsGo : Nat → List Char → List (List Char × Bool)
  | 0, s => if s = [] then [] else [(s, false)]
  | fuel + 1, s =>
    match findStars s with
    | none => if s = [] then [] else [(s, false)]
    | some (p1, r1) =>
      match findStars r1 with
      | none => if s = [] then [] else [(s, false)]
      | some (g, r2) =>
        (if p1 = [] then [] else [(p1, false)]) ++ (g, true) :: boldPartsGo fuel r2

/-- The `parts` list of the bold branch. -/
def boldParts (s : List Char) : List (List Char × Bool) := boldPartsGo s.length s

theorem boldPartsGo_fuel {fuel : Nat} {s : List Char} (hf : s.length ≤ fuel) :
    boldPartsGo fuel s = boldPartsGo s.length s := by
  induction fuel using Nat.strong_induction_on generalizing s with
  | _ fuel ih =>
    match fuel, hf with
    | 0, hf =>
      have hs0 : s = [] := by
        cases s with
        | nil => rfl
        | cons c t => simp at hf
      subst hs0
      rfl
    | fuel + 1, hf =>
      cases hsn : s.length with
      | zero =>
        have hs0 : s = [] := List.length_eq_zero.mp hsn
        subst hs0
        rfl
      | succ n =>
        rw [boldPartsGo, boldPartsGo]
        cases h1 : findStars s with
        | none => rfl
        | some pr1 =>
          obtain ⟨p1, r1⟩ := pr1
          simp only
          cases h2 : findStars r1 with
          | none => rfl
          | some pr2 =>
            obtain ⟨g, r2⟩ := pr2
            simp only
            have hlt1 := findStars_shorter h1
            have hlt2 := findStars_shorter h2
            rw [ih fuel (by omega) (show r2.length ≤ fuel by omega),
              ih n (by omega) (show r2.length ≤ n by omega)]

/-- The defining equation of `boldParts`, with the fuel eliminated. -/
theorem boldParts_eq (s : List Char) :
    boldParts s =
      match findStars s with
      | none => if s = [] then [] else [(s, false)]
      | some (p1, r1) =>
        match findStars r1 with
        | none => if s = [] then [] else [(s, false)]
        | some (g, r2) =>
          (if p1 = [] then [] else [(p1, false)]) ++ (g, true) :: boldParts r2 := by
  unfold boldParts
  cases hsn : s.length with
  | zero =>
    have hs0 : s = [] := List.length_eq_zero.mp hsn
    subst hs0
    rfl
  | succ n =>
    rw [boldPartsGo]
    cases h1 : findStars s with
    | none => rfl
    | some pr1 =>
      obtain ⟨p1, r1⟩ := pr1
      simp only
      cases h2 : findStars r1 with
      | none => rfl
      | some pr2 =>
        obtain ⟨g, r2⟩ := pr2
        simp only
        have hlt1 := findStars_shorter h1
        have hlt2 := findStars_shorter h2
        rw [boldPartsGo_fuel (show r2.length ≤ n by omega)]

/-- The per-part emission loop of the bold branch: insert each part at the
current index, follow a bold part with an `updateTextStyle` request, and
advance the index by the part's length. -/
def emitParts : List (List Char × Bool) → Nat → List Req × Nat
  | [], ci => ([], ci)
  | (t, b) :: rest, ci =>
    let ops :=
      Req.insertText ci t ::
        (if b then [Req.updateTextStyle ci (ci + t.length) true] else [])
    let res := emitParts rest (ci + t.length)
    (ops ++ res.1, res.2)

/-- The `<NEWPAGE>` sentinel. -/
def sentinelNEWPAGE : List Char := "<NEWPAGE>".data

/-- The body of the `for line in lines` loop: the requests emitted for one
line and the updated `current_index`. -/
def processLine (line : List Char) (ci : Nat) : List Req × Nat :=
  let ls := pyStrip line
  if ls = sentinelNEWPAGE then
    ([Req.insertPageBreak ci], ci + 1)
  else if ls = [] then
    ([Req.insertText ci ['\n']], ci + 1)
  else if "## ".data.isPrefixOf ls then
    let text := ls.drop 3
    ([Req.insertText ci (text ++ ['\n']),
      Req.updateParagraphStyle ci (ci + text.length) "HEADING_2"],
     ci + text.length + 1)
  else if "# ".data.isPrefixOf ls then
    let text := ls.drop 2
    ([Req.insertText ci (text ++ ['\n']),
      Req.updateParagraphStyle ci (ci + text.length) "HEADING_1"],
     ci + text.length + 1)
  else if "* ".data.isPrefixOf ls ∨ "- ".data.isPrefixOf ls then
    let text := ls.drop 2
    ([Req.insertText ci (text ++ ['\n']),
      Req.createParagraphBullets ci (ci + text.length + 1) "BULLET_DISC_CIRCLE_SQUARE"],
     ci + text.length + 1)
  else if (findStars ls).isSome then
    let res := emitParts (boldParts ls) ci
    (res.1 ++ [Req.insertText res.2 ['\n']], res.2 + 1)
  else
    ([Req.insertText ci (ls ++ ['\n'])], ci + ls.length + 1)

/-- The loop over all lines, threading `current_index`. -/
def go : List (List Char) → Nat → List Req
  | [], _ => []
  | l :: ls, ci =>
    let res := processLine l ci
    res.1 ++ go ls res.2

/-- `apply_basic_markdown_to_docs_requests` from src/main.py. -/
def apply_basic_markdown_to_docs_requests (markdown_content : String) : List Req :=
  go (splitOnNl markdown_content.data) 1

/-! ### Derived notions used to state the claims -/

/-- The inserted text of a request (empty for non-insert requests). -/
def opText : Req → List Char
  | .insertText _ t => t
  | _ => []

/-- Concatenation, in emission order, of the text of every InsertText
request. -/
def concatTexts (ops : List Req) : List Char := (ops.map opText).flatten

/-- The subsequence of InsertText requests, as (start position, text)
pairs in emission order. -/
def insertsOf : List Req → List (Nat × List Char)
  | [] => []
  | Req.insertText i t :: rest => (i, t) :: insertsOf rest
  | _ :: rest => insertsOf rest

/-- How far a request moves `current_index`: an InsertText by its text
length, an InsertPageBreak by one, style requests not at all. -/
def opAdvance : Req → Nat
  | .insertText _ t => t.length
  | .insertPageBreak _ => 1
  | _ => 0

/-- Total cursor movement of a request list. -/
def advanceOf (ops : List Req) : Nat := (ops.map opAdvance).sum

/-- Every InsertText and InsertPageBreak request is emitted exactly at the
running cursor, which starts at `ci` and advances by the inserted text's
length, respectively by one; style requests are unconstrained. -/
def cursorChain : Nat → List Req → Prop
  | _, [] => True
  | ci, Req.insertText i t :: rest => i = ci ∧ cursorChain (ci + t.length) rest
  | ci, Req.insertPageBreak i :: rest => i = ci ∧ cursorChain (ci + 1) rest
  | ci, _ :: rest => cursorChain ci rest

/-- Consecutive InsertText requests have non-decreasing start positions. -/
def startsNondecreasing (ops : List Req) : Prop :=
  List.Chain' (fun a b => a.1 ≤ b.1) (insertsOf ops)

/-- Each InsertText request starts exactly where the previous InsertText
request's text ended (the relation claimed by the spec). -/
def consecutiveStartsExact (ops : List Req) : Prop :=
  List.Chain' (fun a b => b.1 = a.1 + a.2.length) (insertsOf ops)

/-- Is the request one of the three style/bullet/bold decorations? -/
def isStyleOp : Req → Bool
  | .updateParagraphStyle _ _ _ => true
  | .createParagraphBullets _ _ _ => true
  | .updateTextStyle _ _ _ => true
  | _ => false

/-- Start of a style request's range. -/
def styleStart : Req → Nat
  | .updateParagraphStyle a _ _ => a
  | .createParagraphBullets a _ _ => a
  | .updateTextStyle a _ _ => a
  | _ => 0

/-- End of a style request's range. -/
def styleEnd : Req → Nat
  | .updateParagraphStyle _ b _ => b
  | .createParagraphBullets _ b _ => b
  | .updateTextStyle _ b _ => b
  | _ => 0

/-- The range `[a, b]` lies within the span of some InsertText request
contained in `pre`. -/
def coveredIn (pre : List Req) (a b : Nat) : Prop :=
  ∃ i t, Req.insertText i t ∈ pre ∧ i ≤ a ∧ b ≤ i + t.length

/-- Every style request's range lies within the span of an InsertText
request emitted strictly before it. -/
def StylesCovered (ops : List Req) : Prop :=
  ∀ pre op post, ops = pre ++ op :: post → isStyleOp op = true →
    coveredIn pre (styleStart op) (styleEnd op)

/-- Every style request in `ops` is covered by an InsertText request that
is either in `avail` or emitted earlier in `ops`. -/
def CoveredGiven : List Req → List Req → Prop
  | _, [] => True
  | avail, op :: rest =>
    (isStyleOp op = true → coveredIn avail (styleStart op) (styleEnd op)) ∧
      CoveredGiven (avail ++ [op]) rest

/-- The string contains the two-character substring `**`. -/
def hasStars (s : List Char) : Prop := ∃ a b, s = a ++ '*' :: '*' :: b

/-- The part of the string after the last bold match (the whole string when
the pattern never matches), fuel-indexed like `boldPartsGo`. -/
def boldRemainderGo : Nat → List Char → List Char
  | 0, s => s
  | fuel + 1, s =>
    match findStars s with
    | none => s
    | some (_, r1) =>
      match findStars r1 with
      | none => s
      | some (_, r2) => boldRemainderGo fuel r2

/-- The unconsumed tail of the bold-pattern scan. -/
def boldRemainder (s : List Char) : List Char := boldRemainderGo s.length s

/-- Every `**` of the line opens or closes a bold span: the scan of
`re.finditer(r'\*\*(.*?)\*\*', s)` leaves no `**` unconsumed. -/
def wellFormedBold (s : List Char) : Prop := ¬ hasStars (boldRemainder s)

/-- The line's visible text with each matched pair of `**` delimiters
removed, fuel-indexed like `boldPartsGo`. -/
def removeBoldMarksGo : Nat → List Char → List Char
  | 0, s => s
  | fuel + 1, s =>
    match findStars s with
    | none => s
    | some (p1, r1) =>
      match findStars r1 with
      | none => s
      | some (g, r2) => p1 ++ g ++ removeBoldMarksGo fuel r2

/-- The line with each matched pair of `**` delimiters removed. -/
def removeBoldMarks (s : List Char) : List Char := removeBoldMarksGo s.length s

/-- The visible text one input line contributes, in the order the converter
emits it: nothing for a `<NEWPAGE>` line, otherwise the stripped line with
a recognized structural prefix removed and, on a bold-branch line, matched
`**` pairs removed, followed by exactly one newline. -/
def lineText (line : List Char) : List Char :=
  let ls := pyStrip line
  if ls = sentinelNEWPAGE then []
  else if ls = [] then ['\n']
  else if "## ".data.isPrefixOf ls then ls.drop 3 ++ ['\n']
  else if "# ".data.isPrefixOf ls then ls.drop 2 ++ ['\n']
  else if "* ".data.isPrefixOf ls ∨ "- ".data.isPrefixOf ls then ls.drop 2 ++ ['\n']
  else if (findStars ls).isSome then removeBoldMarks ls ++ ['\n']
  else ls ++ ['\n']

/-! ### Basic lemmas -/

theorem advanceOf_nil : advanceOf [] = 0 := rfl

theorem advanceOf_cons (op : Req) (ops : List Req) :
    advanceOf (op :: ops) = opAdvance op + advanceOf ops := by
  simp [advanceOf]

theorem advanceOf_append (a b : List Req) :
    advanceOf (a ++ b) = advanceOf a + advanceOf b := by
  simp [advanceOf]

theorem findStars_decomp {s p r : List Char} (h : findStars s = some (p, r)) :
    s = p ++ '*' :: '*' :: r := by
  induction s generalizing p r with
  | nil => simp [findStars] at h
  | cons c rest ih =>
    match rest with
    | [] => simp [findStars] at h
    | d :: rest2 =>
      rw [findStars] at h
      split at h
      · rename_i hC
        obtain ⟨hc, hd⟩ := hC
        simp only [Option.some.injEq, Prod.mk.injEq] at h
        obtain ⟨hp, hr⟩ := h
        subst hc
        subst hd
        rw [← hp, ← hr]
        rfl
      · simp only [Option.map_eq_some'] at h
        obtain ⟨⟨p2, r2⟩, hfind, heq⟩ := h
        simp only [Prod.mk.injEq] at heq
        obtain ⟨hp, hr⟩ := heq
        subst hp
        subst hr
        simpa using ih hfind

theorem findStars_isSome_of_hasStars {s : List Char} (h : hasStars s) :
    (findStars s).isSome = true := by
  obtain ⟨a, b, hab⟩ := h
  induction a generalizing s with
  | nil =>
    subst hab
    simp [findStars]
  | cons c a2 ih =>
    subst hab
    cases ht : a2 ++ '*' :: '*' :: b with
    | nil => simp at ht
    | cons d rest2 =>
      rw [List.cons_append, ht, findStars]
      split
      · simp
      · have h2 : (findStars (d :: rest2)).isSome = true := by
          rw [← ht]
          exact ih rfl
        cases hfs : findStars (d :: rest2) with
        | none => rw [hfs] at h2; simp at h2
        | some pr => simp [hfs]

theorem hasStars_iff {s : List Char} : hasStars s ↔ (findStars s).isSome = true := by
  constructor
  · exact findStars_isSome_of_hasStars
  · intro h
    cases hf : findStars s with
    | none => rw [hf] at h; simp at h
    | some pr => exact ⟨pr.1, pr.2, findStars_decomp (by rw [hf])⟩

instance : DecidablePred hasStars := fun s =>
  decidable_of_iff ((findStars s).isSome = true) hasStars_iff.symm

instance (s : List Char) : Decidable (wellFormedBold s) :=
  inferInstanceAs (Decidable (¬ hasStars (boldRemainder s)))

/-- Executable check of the consecutive-start relation. -/
def consecutiveStartsExactB : List (Nat × List Char) → Bool
  | [] => true
  | [_] => true
  | a :: b :: rest =>
    (decide (b.1 = a.1 + a.2.length)) && consecutiveStartsExactB (b :: rest)

theorem consecutiveStartsExactB_iff (l : List (Nat × List Char)) :
    consecutiveStartsExactB l = true ↔
      List.Chain' (fun a b : Nat × List Char => b.1 = a.1 + a.2.length) l := by
  induction l with
  | nil => simp [consecutiveStartsExactB]
  | cons a rest ih =>
    cases rest with
    | nil => simp [consecutiveStartsExactB]
    | cons b rest2 =>
      rw [consecutiveStartsExactB, Bool.and_eq_true, decide_eq_true_iff,
        List.chain'_cons, ih]

instance (ops : List Req) : Decidable (consecutiveStartsExact ops) :=
  decidable_of_iff (consecutiveStartsExactB (insertsOf ops) = true)
    (consecutiveStartsExactB_iff (insertsOf ops))

theorem not_hasStars_of_findStars_none {s : List Char} (h : findStars s = none) :
    ¬ hasStars s := by
  intro hs
  have := findStars_isSome_of_hasStars hs
  rw [h] at this
  simp at this

theorem findStars_match_clean {s p r : List Char} (h : findStars s = some (p, r)) :
    ¬ hasStars p := by
  induction s generalizing p r with
  | nil => simp [findStars] at h
  | cons c rest ih =>
    match rest with
    | [] => simp [findStars] at h
    | d :: rest2 =>
      rw [findStars] at h
      split at h
      · simp only [Option.some.injEq, Prod.mk.injEq] at h
        rw [← h.1]
        rintro ⟨a, b, hab⟩
        simp at hab
      · rename_i hC
        simp only [Option.map_eq_some'] at h
        obtain ⟨⟨p2, r2⟩, hfind, heq⟩ := h
        simp only [Prod.mk.injEq] at heq
        obtain ⟨hp, hr⟩ := heq
        subst hp
        rintro ⟨a, b, hab⟩
        cases a with
        | nil =>
          simp only [List.nil_append, List.cons.injEq] at hab
          obtain ⟨hc, hp2⟩ := hab
          have hdec := findStars_decomp hfind
          rw [hp2] at hdec
          simp only [List.cons_append, List.cons.injEq] at hdec
          exact hC ⟨hc, hdec.1⟩
        | cons x a2 =>
          simp only [List.cons_append, List.cons.injEq] at hab
          exact ih hfind ⟨a2, b, hab.2⟩

theorem hasStars_append_left {t u : List Char} (h : hasStars t) : hasStars (t ++ u) := by
  obtain ⟨a, b, hab⟩ := h
  exact ⟨a, b ++ u, by rw [hab]; simp⟩

theorem hasStars_of_concat_nonstar {t : List Char} {c : Char} (hc : c ≠ '*')
    (h : hasStars (t ++ [c])) : hasStars t := by
  obtain ⟨a, b, hab⟩ := h
  rcases List.eq_nil_or_concat b with hb | ⟨b2, x, hbx⟩
  · subst hb
    have h1 : (t ++ [c]).getLast? = some c := List.getLast?_concat t
    have h2 : (t ++ [c]).getLast? = some '*' := by
      rw [hab]
      have : a ++ ['*', '*'] = (a ++ ['*']) ++ ['*'] := by simp
      rw [show a ++ '*' :: '*' :: ([] : List Char) = (a ++ ['*']) ++ ['*'] by simp]
      exact List.getLast?_concat _
    rw [h1] at h2
    exact absurd (Option.some.inj h2) hc
  · subst hbx
    have hab2 : t ++ [c] = (a ++ '*' :: '*' :: b2) ++ [x] := by rw [hab]; simp
    have := congrArg List.dropLast hab2
    rw [List.dropLast_concat, List.dropLast_concat] at this
    exact ⟨a, b2, this⟩

theorem hasStars_of_drop {s : List Char} {n : Nat} (h : hasStars (s.drop n)) :
    hasStars s := by
  obtain ⟨a, b, hab⟩ := h
  refine ⟨s.take n ++ a, b, ?_⟩
  conv_lhs => rw [← List.take_append_drop n s]
  rw [hab]
  simp

/-! ### Cursor bookkeeping -/

theorem cursorChain_append {a b : List Req} {ci : Nat}
    (ha : cursorChain ci a) (hb : cursorChain (ci + advanceOf a) b) :
    cursorChain ci (a ++ b) := by
  induction a generalizing ci with
  | nil => simpa [advanceOf] using hb
  | cons op rest ih =>
    rw [List.cons_append]
    cases op with
    | insertText i t =>
      simp only [cursorChain] at ha ⊢
      refine ⟨ha.1, ih ha.2 ?_⟩
      have harith : ci + t.length + advanceOf rest =
          ci + advanceOf (Req.insertText i t :: rest) := by
        rw [advanceOf_cons]
        show _ = ci + (t.length + advanceOf rest)
        omega
      rw [harith]
      exact hb
    | insertPageBreak i =>
      simp only [cursorChain] at ha ⊢
      refine ⟨ha.1, ih ha.2 ?_⟩
      have harith : ci + 1 + advanceOf rest =
          ci + advanceOf (Req.insertPageBreak i :: rest) := by
        rw [advanceOf_cons]
        show _ = ci + (1 + advanceOf rest)
        omega
      rw [harith]
      exact hb
    | updateParagraphStyle a2 b2 st =>
      simp only [cursorChain] at ha ⊢
      refine ih ha ?_
      have harith : ci + advanceOf rest =
          ci + advanceOf (Req.updateParagraphStyle a2 b2 st :: rest) := by
        rw [advanceOf_cons]
        show _ = ci + (0 + advanceOf rest)
        omega
      rw [harith]
      exact hb
    | createParagraphBullets a2 b2 pr =>
      simp only [cursorChain] at ha ⊢
      refine ih ha ?_
      have harith : ci + advanceOf rest =
          ci + advanceOf (Req.createParagraphBullets a2 b2 pr :: rest) := by
        rw [advanceOf_cons]
        show _ = ci + (0 + advanceOf rest)
        omega
      rw [harith]
      exact hb
    | updateTextStyle a2 b2 bo =>
      simp only [cursorChain] at ha ⊢
      refine ih ha ?_
      have harith : ci + advanceOf rest =
          ci + advanceOf (Req.updateTextStyle a2 b2 bo :: rest) := by
        rw [advanceOf_cons]
        show _ = ci + (0 + advanceOf rest)
        omega
      rw [harith]
      exact hb

theorem cursorChain_lower_bound {ci : Nat} {ops : List Req}
    (h : cursorChain ci ops) : ∀ p ∈ insertsOf ops, ci ≤ p.1 := by
  induction ops generalizing ci with
  | nil => simp [insertsOf]
  | cons op rest ih =>
    cases op with
    | insertText i t =>
      simp only [cursorChain] at h
      intro p hp
      simp only [insertsOf, List.mem_cons] at hp
      rcases hp with hp | hp
      · rw [hp, h.1]
      · have := ih h.2 p hp
        omega
    | insertPageBreak i =>
      simp only [cursorChain] at h
      intro p hp
      simp only [insertsOf] at hp
      have := ih h.2 p hp
      omega
    | updateParagraphStyle a2 b2 st =>
      simp only [cursorChain] at h
      intro p hp
      simp only [insertsOf] at hp
      exact ih h p hp
    | createParagraphBullets a2 b2 pr =>
      simp only [cursorChain] at h
      intro p hp
      simp only [insertsOf] at hp
      exact ih h p hp
    | updateTextStyle a2 b2 bo =>
      simp only [cursorChain] at h
      intro p hp
      simp only [insertsOf] at hp
      exact ih h p hp

theorem cursorChain_nondecreasing {ci : Nat} {ops : List Req}
    (h : cursorChain ci ops) : startsNondecreasing ops := by
  unfold startsNondecreasing
  induction ops generalizing ci with
  | nil => simp [insertsOf]
  | cons op rest ih =>
    cases op with
    | insertText i t =>
      simp only [cursorChain] at h
      simp only [insertsOf]
      rw [List.chain'_cons']
      refine ⟨?_, ih h.2⟩
      intro y hy
      have hmem : y ∈ insertsOf rest := List.mem_of_mem_head? hy
      have := cursorChain_lower_bound h.2 y hmem
      simp only [h.1]
      omega
    | insertPageBreak i =>
      simp only [cursorChain] at h
      simpa [insertsOf] using ih h.2
    | updateParagraphStyle a2 b2 st =>
      simp only [cursorChain] at h
      simpa [insertsOf] using ih h
    | createParagraphBullets a2 b2 pr =>
      simp only [cursorChain] at h
      simpa [insertsOf] using ih h
    | updateTextStyle a2 b2 bo =>
      simp only [cursorChain] at h
      simpa [insertsOf] using ih h

theorem emitParts_snd (ps : List (List Char × Bool)) (ci : Nat) :
    (emitParts ps ci).2 = ci + advanceOf (emitParts ps ci).1 := by
  induction ps generalizing ci with
  | nil => simp [emitParts, advanceOf]
  | cons p rest ih =>
    obtain ⟨t, b⟩ := p
    cases b with
    | false =>
      simp only [emitParts, if_neg (by simp : ¬ False)]
      simp only [Bool.false_eq_true, if_false, List.nil_append]
      rw [ih (ci + t.length)]
      simp [advanceOf_cons, opAdvance]
      omega
    | true =>
      simp only [emitParts, if_pos rfl]
      rw [ih (ci + t.length)]
      simp [advanceOf_cons, advanceOf_append, opAdvance]
      omega

theorem emitParts_cursorChain (ps : List (List Char × Bool)) (ci : Nat) :
    cursorChain ci (emitParts ps ci).1 := by
  induction ps generalizing ci with
  | nil => simp [emitParts, cursorChain]
  | cons p rest ih =>
    obtain ⟨t, b⟩ := p
    cases b with
    | false =>
      simp only [emitParts, Bool.false_eq_true, if_false, List.nil_append]
      simp only [List.cons_append, List.nil_append, cursorChain]
      exact ⟨trivial, ih (ci + t.length)⟩
    | true =>
      simp only [emitParts, if_pos rfl]
      simp only [List.cons_append, List.nil_append, cursorChain]
      exact ⟨trivial, ih (ci + t.length)⟩

theorem processLine_chain (line : List Char) (ci : Nat) :
    cursorChain ci (processLine line ci).1 ∧
      (processLine line ci).2 = ci + advanceOf (processLine line ci).1 := by
  simp only [processLine]
  split
  · exact ⟨⟨rfl, trivial⟩, by simp [advanceOf, opAdvance]⟩
  · split
    · exact ⟨⟨rfl, trivial⟩, by simp [advanceOf, opAdvance]⟩
    · split
      · constructor
        · exact ⟨rfl, trivial⟩
        · simp only [advanceOf, opAdvance, List.map_cons, List.map_nil, List.sum_cons,
            List.sum_nil, List.length_append, List.length_cons, List.length_nil]
          omega
      · split
        · constructor
          · exact ⟨rfl, trivial⟩
          · simp only [advanceOf, opAdvance, List.map_cons, List.map_nil, List.sum_cons,
              List.sum_nil, List.length_append, List.length_cons, List.length_nil]
            omega
        · split
          · constructor
            · exact ⟨rfl, trivial⟩
            · simp only [advanceOf, opAdvance, List.map_cons, List.map_nil, List.sum_cons,
                List.sum_nil, List.length_append, List.length_cons, List.length_nil]
              omega
          · split
            · constructor
              · refine cursorChain_append (emitParts_cursorChain _ _) ?_
                refine ⟨emitParts_snd _ _, trivial⟩
              · rw [advanceOf_append, emitParts_snd (boldParts (pyStrip line)) ci]
                simp only [advanceOf, opAdvance, List.map_cons, List.map_nil, List.sum_cons,
                  List.sum_nil, List.length_cons, List.length_nil]
                omega
            · constructor
              · exact ⟨rfl, trivial⟩
              · simp only [advanceOf, opAdvance, List.map_cons, List.map_nil, List.sum_cons,
                  List.sum_nil, List.length_append, List.length_cons, List.length_nil]
                omega

theorem go_cursorChain (lines : List (List Char)) (ci : Nat) :
    cursorChain ci (go lines ci) := by
  induction lines generalizing ci with
  | nil => simp [go, cursorChain]
  | cons l rest ih =>
    simp only [go]
    obtain ⟨h1, h2⟩ := processLine_chain l ci
    refine cursorChain_append h1 ?_
    rw [← h2]
    exact ih _

theorem splitOnNl_ne_nil (t : List Char) : splitOnNl t ≠ [] := by
  cases t with
  | nil => simp [splitOnNl]
  | cons c rest =>
    rw [splitOnNl]
    split
    · simp
    · cases splitOnNl rest <;> simp

theorem splitOnNl_concat_nl (t : List Char) :
    splitOnNl (t ++ ['\n']) = splitOnNl t ++ [[]] := by
  induction t with
  | nil => rfl
  | cons c t ih =>
    by_cases hc : c = '\n'
    · subst hc
      simp [splitOnNl, ih]
    · rw [List.cons_append, splitOnNl, if_neg hc, ih, splitOnNl, if_neg hc]
      cases hsp : splitOnNl t with
      | nil => exact absurd hsp (splitOnNl_ne_nil t)
      | cons x xs => simp

theorem go_trailing (L : List (List Char)) (ci : Nat) :
    ∃ i, (go (L ++ [[]]) ci).getLast? = some (Req.insertText i ['\n']) := by
  induction L generalizing ci with
  | nil => exact ⟨ci, rfl⟩
  | cons l L2 ih =>
    rw [List.cons_append]
    simp only [go]
    obtain ⟨i, hi⟩ := ih (processLine l ci).2
    refine ⟨i, ?_⟩
    rw [List.getLast?_append_of_ne_nil _ ?_, hi]
    intro hnil
    rw [hnil] at hi
    simp at hi

/-! ### Concatenated visible text -/

theorem concatTexts_nil : concatTexts [] = [] := rfl

theorem concatTexts_append (a b : List Req) :
    concatTexts (a ++ b) = concatTexts a ++ concatTexts b := by
  simp [concatTexts]

theorem emitParts_concatTexts (ps : List (List Char × Bool)) (ci : Nat) :
    concatTexts (emitParts ps ci).1 = (ps.map Prod.fst).flatten := by
  induction ps generalizing ci with
  | nil => rfl
  | cons p rest ih =>
    obtain ⟨t, b⟩ := p
    cases b with
    | false => simp [emitParts, concatTexts, opText, ← ih (ci + t.length), List.map_append]
    | true => simp [emitParts, concatTexts, opText, ← ih (ci + t.length), List.map_append]

theorem boldPartsGo_flatten {fuel : Nat} {s : List Char} (hf : s.length ≤ fuel) :
    ((boldPartsGo fuel s).map Prod.fst).flatten = removeBoldMarksGo fuel s := by
  induction fuel generalizing s with
  | zero =>
    have hs0 : s = [] := by
      cases s with
      | nil => rfl
      | cons c t => simp at hf
    subst hs0
    rfl
  | succ fuel ih =>
    rw [boldPartsGo, removeBoldMarksGo]
    cases h1 : findStars s with
    | none =>
      by_cases hs : s = []
      · simp [hs]
      · simp [hs]
    | some pr1 =>
      obtain ⟨p1, r1⟩ := pr1
      simp only
      cases h2 : findStars r1 with
      | none =>
        by_cases hs : s = []
        · simp [hs]
        · simp [hs]
      | some pr2 =>
        obtain ⟨g, r2⟩ := pr2
        simp only
        have hlt1 := findStars_shorter h1
        have hlt2 := findStars_shorter h2
        have hr := ih (s := r2) (by omega)
        by_cases hp : p1 = []
        · simp [hp, hr]
        · simp [hp, hr]

theorem boldParts_flatten (s : List Char) :
    ((boldParts s).map Prod.fst).flatten = removeBoldMarks s :=
  boldPartsGo_flatten le_rfl

theorem processLine_text (line : List Char) (ci : Nat) :
    concatTexts (processLine line ci).1 = lineText line := by
  simp only [processLine, lineText]
  by_cases hsent : pyStrip line = sentinelNEWPAGE
  · rw [if_pos hsent, if_pos hsent]
    rfl
  · rw [if_neg hsent, if_neg hsent]
    by_cases hemp : pyStrip line = []
    · rw [if_pos hemp, if_pos hemp]
      rfl
    · rw [if_neg hemp, if_neg hemp]
      by_cases hh2 : "## ".data.isPrefixOf (pyStrip line) = true
      · rw [if_pos hh2, if_pos hh2]
        simp [concatTexts, opText]
      · rw [if_neg hh2, if_neg hh2]
        by_cases hh1 : "# ".data.isPrefixOf (pyStrip line) = true
        · rw [if_pos hh1, if_pos hh1]
          simp [concatTexts, opText]
        · rw [if_neg hh1, if_neg hh1]
          by_cases hbul : ("* ".data.isPrefixOf (pyStrip line) = true ∨
              "- ".data.isPrefixOf (pyStrip line) = true)
          · rw [if_pos hbul, if_pos hbul]
            simp [concatTexts, opText]
          · rw [if_neg hbul, if_neg hbul]
            by_cases hstar : (findStars (pyStrip line)).isSome = true
            · rw [if_pos hstar, if_pos hstar, concatTexts_append, emitParts_concatTexts,
                boldParts_flatten]
              simp [concatTexts, opText]
            · rw [if_neg hstar, if_neg hstar]
              simp [concatTexts, opText]

theorem go_concatTexts (lines : List (List Char)) (ci : Nat) :
    concatTexts (go lines ci) = (lines.map lineText).flatten := by
  induction lines generalizing ci with
  | nil => rfl
  | cons l rest ih =>
    simp only [go, concatTexts_append, processLine_text, ih, List.map_cons,
      List.flatten_cons]

/-! ### Style ranges are covered by earlier inserts -/

theorem coveredIn_mono {pre pre2 : List Req} {a b : Nat}
    (hsub : ∀ x ∈ pre, x ∈ pre2) (h : coveredIn pre a b) : coveredIn pre2 a b := by
  obtain ⟨i, t, hmem, h1, h2⟩ := h
  exact ⟨i, t, hsub _ hmem, h1, h2⟩

theorem CoveredGiven_mono {avail avail2 ops : List Req}
    (hsub : ∀ x ∈ avail, x ∈ avail2) (h : CoveredGiven avail ops) :
    CoveredGiven avail2 ops := by
  induction ops generalizing avail avail2 with
  | nil => trivial
  | cons op rest ih =>
    simp only [CoveredGiven] at h ⊢
    refine ⟨fun hs => coveredIn_mono hsub (h.1 hs), ih ?_ h.2⟩
    intro x hx
    rw [List.mem_append] at hx ⊢
    rcases hx with hx | hx
    · exact Or.inl (hsub x hx)
    · exact Or.inr hx

theorem CoveredGiven_append {avail a b : List Req} (ha : CoveredGiven avail a)
    (hb : CoveredGiven (avail ++ a) b) : CoveredGiven avail (a ++ b) := by
  induction a generalizing avail with
  | nil => simpa using hb
  | cons op rest ih =>
    simp only [List.cons_append, CoveredGiven] at ha ⊢
    refine ⟨ha.1, ih ha.2 ?_⟩
    refine CoveredGiven_mono ?_ hb
    intro x hx
    simp only [List.mem_append, List.mem_cons, List.mem_singleton] at hx ⊢
    tauto

theorem CoveredGiven_styles {avail ops : List Req} (h : CoveredGiven avail ops) :
    ∀ pre op post, ops = pre ++ op :: post → isStyleOp op = true →
      coveredIn (avail ++ pre) (styleStart op) (styleEnd op) := by
  induction ops generalizing avail with
  | nil =>
    intro pre op post heq
    exact absurd heq (by simp)
  | cons x rest ih =>
    intro pre op post heq hstyle
    simp only [CoveredGiven] at h
    cases pre with
    | nil =>
      simp only [List.nil_append, List.cons.injEq] at heq
      rw [List.append_nil, ← heq.1]
      exact h.1 (heq.1 ▸ hstyle)
    | cons y pre2 =>
      simp only [List.cons_append, List.cons.injEq] at heq
      obtain ⟨hxy, hrest⟩ := heq
      have := ih h.2 pre2 op post hrest hstyle
      refine coveredIn_mono ?_ this
      intro z hz
      subst hxy
      simp only [List.mem_append, List.mem_cons, List.mem_singleton] at hz ⊢
      tauto

theorem StylesCovered_of_CoveredGiven {ops : List Req} (h : CoveredGiven [] ops) :
    StylesCovered ops := by
  intro pre op post heq hstyle
  simpa using CoveredGiven_styles h pre op post heq hstyle

theorem emitParts_covered (ps : List (List Char × Bool)) (ci : Nat) (avail : List Req) :
    CoveredGiven avail (emitParts ps ci).1 := by
  induction ps generalizing ci avail with
  | nil => trivial
  | cons p rest ih =>
    obtain ⟨t, b⟩ := p
    cases b with
    | false =>
      simp only [emitParts, Bool.false_eq_true, if_false]
      simp only [List.cons_append, List.nil_append, CoveredGiven]
      exact ⟨fun hs => by simp [isStyleOp] at hs, ih (ci + t.length) _⟩
    | true =>
      simp only [emitParts, if_pos rfl]
      simp only [List.cons_append, List.nil_append, CoveredGiven]
      refine ⟨fun hs => by simp [isStyleOp] at hs, ?_, ?_⟩
      · intro hs
        refine ⟨ci, t, ?_, le_rfl, le_rfl⟩
        simp
      · exact ih (ci + t.length) _

theorem processLine_covered (line : List Char) (ci : Nat) (avail : List Req) :
    CoveredGiven avail (processLine line ci).1 := by
  simp only [processLine]
  split
  · exact ⟨fun hs => by simp [isStyleOp] at hs, trivial⟩
  · split
    · exact ⟨fun hs => by simp [isStyleOp] at hs, trivial⟩
    · split
      · refine ⟨fun hs => by simp [isStyleOp] at hs, fun hs => ?_, trivial⟩
        refine ⟨ci, List.drop 3 (pyStrip line) ++ ['\n'], by simp, le_rfl, ?_⟩
        simp [styleEnd]
      · split
        · refine ⟨fun hs => by simp [isStyleOp] at hs, fun hs => ?_, trivial⟩
          refine ⟨ci, List.drop 2 (pyStrip line) ++ ['\n'], by simp, le_rfl, ?_⟩
          simp [styleEnd]
        · split
          · refine ⟨fun hs => by simp [isStyleOp] at hs, fun hs => ?_, trivial⟩
            refine ⟨ci, List.drop 2 (pyStrip line) ++ ['\n'], by simp, le_rfl, ?_⟩
            simp only [styleEnd, List.length_append, List.length_drop, List.length_cons,
              List.length_nil]
            omega
          · split
            · refine CoveredGiven_append (emitParts_covered _ _ _) ?_
              exact ⟨fun hs => by simp [isStyleOp] at hs, trivial⟩
            · exact ⟨fun hs => by simp [isStyleOp] at hs, trivial⟩

theorem go_covered (lines : List (List Char)) (ci : Nat) (avail : List Req) :
    CoveredGiven avail (go lines ci) := by
  induction lines generalizing ci avail with
  | nil => trivial
  | cons l rest ih =>
    simp only [go]
    exact CoveredGiven_append (processLine_covered l ci avail) (ih _ _)

/-! ### No delimiter leakage -/

theorem boldPartsGo_clean {fuel : Nat} {s : List Char} (hf : s.length ≤ fuel)
    (hwf : ¬ hasStars (boldRemainderGo fuel s)) :
    ∀ p ∈ boldPartsGo fuel s, ¬ hasStars p.1 := by
  induction fuel generalizing s with
  | zero =>
    have hs0 : s = [] := by
      cases s with
      | nil => rfl
      | cons c t => simp at hf
    subst hs0
    simp [boldPartsGo]
  | succ fuel ih =>
    rw [boldPartsGo]
    rw [boldRemainderGo] at hwf
    cases h1 : findStars s with
    | none =>
      have hwfs : ¬ hasStars s := by simpa only [boldRemainderGo, h1] using hwf
      intro p hp
      simp only [h1] at hp
      split at hp
      · simp at hp
      · simp only [List.mem_singleton] at hp
        rw [hp]
        exact hwfs
    | some pr1 =>
      obtain ⟨p1, r1⟩ := pr1
      cases h2 : findStars r1 with
      | none =>
        have hwfs : ¬ hasStars s := by
          simpa only [boldRemainderGo, h1, h2] using hwf
        intro p hp
        simp only [h1, h2] at hp
        split at hp
        · simp at hp
        · simp only [List.mem_singleton] at hp
          rw [hp]
          exact hwfs
      | some pr2 =>
        obtain ⟨g, r2⟩ := pr2
        have hwfr : ¬ hasStars (boldRemainderGo fuel r2) := by
          simpa only [boldRemainderGo, h1, h2] using hwf
        intro p hp
        simp only [h1, h2] at hp
        rw [List.mem_append] at hp
        rcases hp with hp | hp
        · have hp1 : p = (p1, false) := by
            by_cases hn : p1 = []
            · rw [if_pos hn] at hp
              simp at hp
            · rw [if_neg hn] at hp
              simpa using hp
          rw [hp1]
          exact findStars_match_clean h1
        · rw [List.mem_cons] at hp
          rcases hp with hp | hp
          · rw [hp]
            exact findStars_match_clean h2
          · have hlt1 := findStars_shorter h1
            have hlt2 := findStars_shorter h2
            exact ih (s := r2) (by omega) hwfr p hp

theorem boldParts_clean {s : List Char} (hwf : wellFormedBold s) :
    ∀ p ∈ boldParts s, ¬ hasStars p.1 :=
  boldPartsGo_clean le_rfl hwf

theorem emitParts_insert_mem {ps : List (List Char × Bool)} {ci i : Nat} {t : List Char}
    (h : Req.insertText i t ∈ (emitParts ps ci).1) : ∃ b, (t, b) ∈ ps := by
  induction ps generalizing ci with
  | nil => simp [emitParts] at h
  | cons p rest ih =>
    obtain ⟨t2, b⟩ := p
    cases b with
    | false =>
      simp only [emitParts, Bool.false_eq_true, if_false, List.cons_append,
        List.nil_append, List.mem_cons] at h
      rcases h with h | h
      · rw [Req.insertText.injEq] at h
        exact ⟨false, by rw [h.2]; simp⟩
      · obtain ⟨b2, hb2⟩ := ih h
        exact ⟨b2, by simp [hb2]⟩
    | true =>
      simp only [emitParts, eq_self_iff_true, if_true, List.cons_append,
        List.singleton_append, List.nil_append, List.mem_cons] at h
      rcases h with h | h | h
      · rw [Req.insertText.injEq] at h
        exact ⟨true, by rw [h.2]; simp⟩
      · exact absurd h (by simp)
      · obtain ⟨b2, hb2⟩ := ih h
        exact ⟨b2, by simp [hb2]⟩

theorem processLine_no_leak (line : List Char) (ci : Nat)
    (hline : hasStars (pyStrip line) →
      ("## ".data.isPrefixOf (pyStrip line) = false ∧
       "# ".data.isPrefixOf (pyStrip line) = false ∧
       "* ".data.isPrefixOf (pyStrip line) = false ∧
       "- ".data.isPrefixOf (pyStrip line) = false ∧
       wellFormedBold (pyStrip line))) :
    ∀ i t, Req.insertText i t ∈ (processLine line ci).1 → ¬ hasStars t := by
  simp only [processLine]
  split
  · intro i t ht
    simp at ht
  · split
    · intro i t ht
      simp only [List.mem_singleton] at ht
      rw [Req.insertText.injEq] at ht
      rw [ht.2]
      decide
    · split
      · rename_i hcond
        intro i t ht
        simp only [List.mem_cons, List.mem_singleton] at ht
        rcases ht with ht | ht
        · rw [Req.insertText.injEq] at ht
          rw [ht.2]
          intro hst
          have hls : hasStars (pyStrip line) :=
            hasStars_of_drop (hasStars_of_concat_nonstar (by decide) hst)
          rw [(hline hls).1] at hcond
          simp at hcond
        · exact absurd ht (by simp)
      · split
        · rename_i hcond
          intro i t ht
          simp only [List.mem_cons, List.mem_singleton] at ht
          rcases ht with ht | ht
          · rw [Req.insertText.injEq] at ht
            rw [ht.2]
            intro hst
            have hls : hasStars (pyStrip line) :=
              hasStars_of_drop (hasStars_of_concat_nonstar (by decide) hst)
            rw [(hline hls).2.1] at hcond
            simp at hcond
          · exact absurd ht (by simp)
        · split
          · rename_i hcond
            intro i t ht
            simp only [List.mem_cons, List.mem_singleton] at ht
            rcases ht with ht | ht
            · rw [Req.insertText.injEq] at ht
              rw [ht.2]
              intro hst
              have hls : hasStars (pyStrip line) :=
                hasStars_of_drop (hasStars_of_concat_nonstar (by decide) hst)
              rcases hcond with hc | hc
              · rw [(hline hls).2.2.1] at hc
                simp at hc
              · rw [(hline hls).2.2.2.1] at hc
                simp at hc
            · exact absurd ht (by simp)
          · split
            · rename_i hcond
              intro i t ht
              have hls : hasStars (pyStrip line) := hasStars_iff.mpr hcond
              rw [List.mem_append] at ht
              rcases ht with ht | ht
              · obtain ⟨b, hb⟩ := emitParts_insert_mem ht
                exact boldParts_clean (hline hls).2.2.2.2 (t, b) hb
              · simp only [List.mem_singleton] at ht
                rw [Req.insertText.injEq] at ht
                rw [ht.2]
                decide
            · rename_i hcond
              intro i t ht
              simp only [List.mem_singleton] at ht
              rw [Req.insertText.injEq] at ht
              rw [ht.2]
              intro hst
              have hls : hasStars (pyStrip line) :=
                hasStars_of_concat_nonstar (by decide) hst
              exact hcond (hasStars_iff.mp hls)

theorem go_no_leak (lines : List (List Char)) (ci : Nat)
    (h : ∀ line ∈ lines, hasStars (pyStrip line) →
      ("## ".data.isPrefixOf (pyStrip line) = false ∧
       "# ".data.isPrefixOf (pyStrip line) = false ∧
       "* ".data.isPrefixOf (pyStrip line) = false ∧
       "- ".data.isPrefixOf (pyStrip line) = false ∧
       wellFormedBold (pyStrip line))) :
    ∀ i t, Req.insertText i t ∈ go lines ci → ¬ hasStars t := by
  induction lines generalizing ci with
  | nil => simp [go]
  | cons l rest ih =>
    intro i t ht
    simp only [go, List.mem_append] at ht
    rcases ht with ht | ht
    · exact processLine_no_leak l ci (h l (by simp)) i t ht
    · exact ih _ (fun line hm => h line (by simp [hm])) i t ht

/-! ### Per-branch equations of the loop body -/

theorem sentinelNEWPAGE_eq :
    sentinelNEWPAGE = ['<', 'N', 'E', 'W', 'P', 'A', 'G', 'E', '>'] := rfl

theorem processLine_sentinel {line : List Char} (ci : Nat)
    (h : pyStrip line = sentinelNEWPAGE) :
    processLine line ci = ([Req.insertPageBreak ci], ci + 1) := by
  simp only [processLine, if_pos h]

theorem processLine_h2 {line : List Char} (ci : Nat)
    (h : "## ".data.isPrefixOf (pyStrip line) = true) :
    processLine line ci =
      ([Req.insertText ci ((pyStrip line).drop 3 ++ ['\n']),
        Req.updateParagraphStyle ci (ci + ((pyStrip line).drop 3).length) "HEADING_2"],
       ci + ((pyStrip line).drop 3).length + 1) := by
  obtain ⟨u, hu⟩ := List.isPrefixOf_iff_prefix.mp h
  simp only [processLine]
  rw [← hu]
  simp [sentinelNEWPAGE_eq]

theorem processLine_h1 {line : List Char} (ci : Nat)
    (h : "# ".data.isPrefixOf (pyStrip line) = true) :
    processLine line ci =
      ([Req.insertText ci ((pyStrip line).drop 2 ++ ['\n']),
        Req.updateParagraphStyle ci (ci + ((pyStrip line).drop 2).length) "HEADING_1"],
       ci + ((pyStrip line).drop 2).length + 1) := by
  obtain ⟨u, hu⟩ := List.isPrefixOf_iff_prefix.mp h
  simp only [processLine]
  rw [← hu]
  simp [sentinelNEWPAGE_eq]

theorem processLine_bullet {line : List Char} (ci : Nat)
    (h : "* ".data.isPrefixOf (pyStrip line) = true ∨
      "- ".data.isPrefixOf (pyStrip line) = true) :
    processLine line ci =
      ([Req.insertText ci ((pyStrip line).drop 2 ++ ['\n']),
        Req.createParagraphBullets ci (ci + ((pyStrip line).drop 2).length + 1)
          "BULLET_DISC_CIRCLE_SQUARE"],
       ci + ((pyStrip line).drop 2).length + 1) := by
  rcases h with h | h
  · obtain ⟨u, hu⟩ := List.isPrefixOf_iff_prefix.mp h
    simp only [processLine]
    rw [← hu]
    simp [sentinelNEWPAGE_eq]
  · obtain ⟨u, hu⟩ := List.isPrefixOf_iff_prefix.mp h
    simp only [processLine]
    rw [← hu]
    simp [sentinelNEWPAGE_eq]

theorem processLine_three_hash {line : List Char} (ci : Nat)
    (h : "### ".data.isPrefixOf (pyStrip line) = true)
    (hns : findStars (pyStrip line) = none) :
    processLine line ci =
      ([Req.insertText ci (pyStrip line ++ ['\n'])],
       ci + (pyStrip line).length + 1) := by
  obtain ⟨u, hu⟩ := List.isPrefixOf_iff_prefix.mp h
  simp only [processLine]
  rw [← hu] at hns
  have hns2 : findStars ('#' :: '#' :: '#' :: ' ' :: u) = none := hns
  rw [← hu]
  simp [sentinelNEWPAGE_eq, hns2]

theorem processLine_bold_nomatch {line : List Char} (ci : Nat) {p r : List Char}
    (h1 : findStars (pyStrip line) = some (p, r))
    (h2 : findStars r = none)
    (hh2 : "## ".data.isPrefixOf (pyStrip line) = false)
    (hh1 : "# ".data.isPrefixOf (pyStrip line) = false)
    (hb1 : "* ".data.isPrefixOf (pyStrip line) = false)
    (hb2 : "- ".data.isPrefixOf (pyStrip line) = false) :
    processLine line ci =
      ([Req.insertText ci (pyStrip line),
        Req.insertText (ci + (pyStrip line).length) ['\n']],
       ci + (pyStrip line).length + 1) := by
  have hne : pyStrip line ≠ [] := by
    intro hnil
    rw [hnil] at h1
    simp [findStars] at h1
  have hsent : pyStrip line ≠ sentinelNEWPAGE := by
    intro hs
    rw [hs] at h1
    have : findStars sentinelNEWPAGE = none := rfl
    rw [this] at h1
    exact Option.noConfusion h1
  have hbp : boldParts (pyStrip line) = [(pyStrip line, false)] := by
    rw [boldParts_eq, h1]
    simp only [h2]
    rw [if_neg hne]
  simp only [processLine, if_neg hsent, if_neg hne, hh2, hh1, hb1, hb2,
    Bool.false_eq_true, if_false, or_self, h1, Option.isSome_some, if_true, hbp]
  simp [emitParts]

/-! ## The claims -/

/-- C9 helper: when the bold pattern finds no full match, the whole payload
is one plain segment. -/
theorem boldParts_nomatch {s p r : List Char} (h1 : findStars s = some (p, r))
    (h2 : findStars r = none) : boldParts s = [(s, false)] := by
  have hne : s ≠ [] := by
    intro hnil
    rw [hnil] at h1
    simp [findStars] at h1
  rw [boldParts_eq, h1]
  simp only [h2]
  rw [if_neg hne]

/-- C1 (counterexample): the claim that every InsertText starts exactly at
the previous InsertText's start plus the previous text's length fails on
the input "a\n<NEWPAGE>\nb", because the insertPageBreak between the two
inserts advances the cursor by one. -/
theorem c1_counterexample :
    ¬ (startsNondecreasing (apply_basic_markdown_to_docs_requests "a\n<NEWPAGE>\nb") ∧
       consecutiveStartsExact (apply_basic_markdown_to_docs_requests "a\n<NEWPAGE>\nb")) := by
  intro h
  exact absurd h.2 (by decide)

/-- C1 (amended): in the operation list produced for any input, the
InsertText start positions are non-decreasing, and every InsertText and
InsertPageBreak is emitted exactly at the running cursor, which starts at 1
and advances by the inserted text's length for an InsertText and by one for
an InsertPageBreak (style operations do not move it); hence consecutive
InsertText starts differ by the previous text's length plus the number of
page breaks emitted between them. -/
theorem c1_cursor_discipline (s : String) :
    startsNondecreasing (apply_basic_markdown_to_docs_requests s) ∧
      cursorChain 1 (apply_basic_markdown_to_docs_requests s) :=
  ⟨cursorChain_nondecreasing (go_cursorChain (splitOnNl s.data) 1),
   go_cursorChain (splitOnNl s.data) 1⟩

/-- C2 (counterexample): concatenating the inserted texts does not reproduce
the input with prefixes removed: for the input "### x" the claim predicts
"x" (the three-hash prefix removed, nothing else changed), but the converter
leaves the '### ' prefix in place and appends a newline. -/
theorem c2_counterexample :
    concatTexts (apply_basic_markdown_to_docs_requests "### x") = "### x\n".data ∧
      "### x\n".data ≠ "x".data := by
  constructor
  · decide
  · decide

/-- C2 (amended): concatenating, in order, the text of every InsertText
operation yields exactly the per-line visible text of `lineText`: for each
line of the input (split on newline), nothing for a stripped '<NEWPAGE>'
line, otherwise the whitespace-stripped line with one recognized '## ',
'# ', '* ' or '- ' prefix removed and, on a bold-branch line, each matched
pair of '**' delimiters removed, always followed by exactly one newline
('### ' is not removed, stripped whitespace is not preserved, and every
line gains a trailing newline). -/
theorem c2_round_trip (s : String) :
    concatTexts (apply_basic_markdown_to_docs_requests s) =
      ((splitOnNl s.data).map lineText).flatten :=
  go_concatTexts (splitOnNl s.data) 1

/-- C3: every updateParagraphStyle, createParagraphBullets and
updateTextStyle operation's range lies within the span of an InsertText
operation emitted strictly before it in the list. -/
theorem c3_style_containment (s : String) (pre : List Req) (op : Req) (post : List Req)
    (h : apply_basic_markdown_to_docs_requests s = pre ++ op :: post)
    (hstyle : isStyleOp op = true) :
    ∃ i t, Req.insertText i t ∈ pre ∧ i ≤ styleStart op ∧ styleEnd op ≤ i + t.length :=
  StylesCovered_of_CoveredGiven (go_covered (splitOnNl s.data) 1 []) pre op post h hstyle

/-- C3 witness: at the input "# t" the Heading1 style range [1,2] is covered
by the insert of "t\n" at 1. -/
theorem c3_witness :
    ∃ i t, Req.insertText i t ∈ [Req.insertText 1 ['t', '\n']] ∧
      i ≤ styleStart (Req.updateParagraphStyle 1 2 "HEADING_1") ∧
      styleEnd (Req.updateParagraphStyle 1 2 "HEADING_1") ≤ i + t.length :=
  c3_style_containment "# t" [Req.insertText 1 ['t', '\n']]
    (Req.updateParagraphStyle 1 2 "HEADING_1") [] (by decide) (by decide)

/-- C4 (counterexample): a line beginning with '### ' is not classified as a
level-3 heading: the input "### Title" produces a single InsertText that
keeps the '### ' prefix, and no paragraph-style operation at all. -/
theorem c4_counterexample :
    apply_basic_markdown_to_docs_requests "### Title" =
      [Req.insertText 1 "### Title\n".data] ∧
      ∀ op ∈ apply_basic_markdown_to_docs_requests "### Title",
        isStyleOp op = false := by
  constructor
  · decide
  · decide

/-- C4 (amended): the converter has no three-hash rule: a trimmed line
beginning with '### ' fails the '## ' and '# ' tests (its third character
is '#', not a space) and, when it contains no '**', falls through to the
plain-paragraph branch, which inserts the payload verbatim, '### ' prefix
included, with no style operation. -/
theorem c4_three_hash_plain (line : List Char) (ci : Nat)
    (h : "### ".data.isPrefixOf (pyStrip line) = true)
    (hns : findStars (pyStrip line) = none) :
    processLine line ci =
      ([Req.insertText ci (pyStrip line ++ ['\n'])],
       ci + (pyStrip line).length + 1) :=
  processLine_three_hash ci h hns

/-- C4 witness: the concrete line "### Title". -/
theorem c4_witness :
    processLine "### Title".data 1 =
      ([Req.insertText 1 "### Title\n".data], 11) :=
  c4_three_hash_plain "### Title".data 1 (by decide) (by decide)

/-- C5 (counterexample): delimiters do leak on heading lines: the input
"# **b**" has well-formed bold delimiters, yet the emitted InsertText text
"**b**\n" contains the substring '**', because the heading branch inserts
its payload verbatim and never splits bold spans. -/
theorem c5_counterexample :
    wellFormedBold (pyStrip "# **b**".data) ∧
      Req.insertText 1 "**b**\n".data ∈
        apply_basic_markdown_to_docs_requests "# **b**" ∧
      hasStars "**b**\n".data := by
  refine ⟨by decide, by decide, by decide⟩

/-- C5 (amended): for every input in which each line whose stripped form
contains '**' is neither a heading nor a bullet line and has well-formed
bold delimiters (the bold scan leaves no '**' unconsumed), no InsertText
operation's text contains the substring '**'.  Heading and bullet lines are
excluded because they insert their payload verbatim. -/
theorem c5_no_leakage (s : String)
    (h : ∀ line ∈ splitOnNl s.data, hasStars (pyStrip line) →
      ("## ".data.isPrefixOf (pyStrip line) = false ∧
       "# ".data.isPrefixOf (pyStrip line) = false ∧
       "* ".data.isPrefixOf (pyStrip line) = false ∧
       "- ".data.isPrefixOf (pyStrip line) = false ∧
       wellFormedBold (pyStrip line))) :
    ∀ i t, Req.insertText i t ∈ apply_basic_markdown_to_docs_requests s →
      ¬ hasStars t :=
  go_no_leak (splitOnNl s.data) 1 h

/-- C5 witness: in the well-formed input "x **y** z" the inserted segment
"y" at position 3 contains no '**'. -/
theorem c5_witness : ¬ hasStars ['y'] :=
  c5_no_leakage "x **y** z" (by decide) 3 ['y'] (by decide)

/-- C6 (counterexample): the input "<NEWPAGE>\n" does not produce exactly
one operation: the line split leaves an empty trailing segment which emits a
newline insert, and the page break advances the cursor from 1 to 2, so the
result has two operations. -/
theorem c6_counterexample :
    apply_basic_markdown_to_docs_requests "<NEWPAGE>\n" ≠ [Req.insertPageBreak 1] ∧
      (apply_basic_markdown_to_docs_requests "<NEWPAGE>\n").length = 2 := by
  constructor
  · decide
  · decide

/-- C6 (amended): the input "<NEWPAGE>\n" produces an insertPageBreak at
index 1 followed by an InsertText of "\n" at index 2, and in general a
page-break line emits exactly one insertPageBreak at the current cursor and
advances the cursor by one. -/
theorem c6_page_break :
    apply_basic_markdown_to_docs_requests "<NEWPAGE>\n" =
      [Req.insertPageBreak 1, Req.insertText 2 ['\n']] ∧
      ∀ line ci, pyStrip line = sentinelNEWPAGE →
        processLine line ci = ([Req.insertPageBreak ci], ci + 1) :=
  ⟨by decide, fun _ ci h => processLine_sentinel ci h⟩

/-- C6 witness: the sentinel line at cursor 5. -/
theorem c6_witness :
    processLine "<NEWPAGE>".data 5 = ([Req.insertPageBreak 5], 6) :=
  c6_page_break.2 "<NEWPAGE>".data 5 (by decide)

/-- C7: a bullet line with payload p emits InsertText(cursor, p ++ "\n")
followed by a bullet operation over [cursor, cursor+len(p)+1] (the range
includes the trailing newline), while a heading line's paragraph-style
range is [cursor, cursor+len(p)] (excluding the newline); and the input
"- item one\n" yields InsertText(1, "item one\n") and SetListBullet([1,10])
(followed by the newline insert of the empty trailing segment). -/
theorem c7_bullet_and_heading_ranges :
    (∀ line ci, ("* ".data.isPrefixOf (pyStrip line) = true ∨
        "- ".data.isPrefixOf (pyStrip line) = true) →
      processLine line ci =
        ([Req.insertText ci ((pyStrip line).drop 2 ++ ['\n']),
          Req.createParagraphBullets ci (ci + ((pyStrip line).drop 2).length + 1)
            "BULLET_DISC_CIRCLE_SQUARE"],
         ci + ((pyStrip line).drop 2).length + 1)) ∧
    (∀ line ci, "## ".data.isPrefixOf (pyStrip line) = true →
      processLine line ci =
        ([Req.insertText ci ((pyStrip line).drop 3 ++ ['\n']),
          Req.updateParagraphStyle ci (ci + ((pyStrip line).drop 3).length) "HEADING_2"],
         ci + ((pyStrip line).drop 3).length + 1)) ∧
    (∀ line ci, "# ".data.isPrefixOf (pyStrip line) = true →
      processLine line ci =
        ([Req.insertText ci ((pyStrip line).drop 2 ++ ['\n']),
          Req.updateParagraphStyle ci (ci + ((pyStrip line).drop 2).length) "HEADING_1"],
         ci + ((pyStrip line).drop 2).length + 1)) ∧
    apply_basic_markdown_to_docs_requests "- item one\n" =
      [Req.insertText 1 "item one\n".data,
       Req.createParagraphBullets 1 10 "BULLET_DISC_CIRCLE_SQUARE",
       Req.insertText 10 ['\n']] :=
  ⟨fun _ ci h => processLine_bullet ci h,
   fun _ ci h => processLine_h2 ci h,
   fun _ ci h => processLine_h1 ci h,
   by decide⟩

/-- C7 witness: the concrete bullet line "- item one" at cursor 1. -/
theorem c7_witness :
    processLine "- item one".data 1 =
      ([Req.insertText 1 "item one\n".data,
        Req.createParagraphBullets 1 10 "BULLET_DISC_CIRCLE_SQUARE"], 10) :=
  c7_bullet_and_heading_ranges.1 "- item one".data 1 (by decide)

/-- C8 (counterexample): the converter does not insert the whole
delimiter-stripped display text of a bold line as one InsertText call: no
operation for the input "Plain **bold** text\n" inserts
"Plain bold text\n". -/
theorem c8_counterexample :
    Req.insertText 1 "Plain bold text\n".data ∉
      apply_basic_markdown_to_docs_requests "Plain **bold** text\n" := by
  decide

/-- C8 (amended): the bold branch inserts each segment separately: the input
"Plain **bold** text\n" yields inserts of "Plain ", "bold" (with the bold
style over [7,11], covering exactly "bold"), " text", the line's newline,
and the trailing empty segment's newline. -/
theorem c8_bold_segments :
    apply_basic_markdown_to_docs_requests "Plain **bold** text\n" =
      [Req.insertText 1 "Plain ".data,
       Req.insertText 7 "bold".data,
       Req.updateTextStyle 7 11 true,
       Req.insertText 11 " text".data,
       Req.insertText 16 ['\n'],
       Req.insertText 17 ['\n']] := by
  decide

/-- C9: the converter is a total function (it is defined as such, with no
error case), and a line whose bold pattern finds no full match — an
unmatched '**' — degrades safely: the whole payload becomes one plain
segment, emitted as a single InsertText followed by the line's newline. -/
theorem c9_unmatched_bold_safe (line : List Char) (ci : Nat) (p r : List Char)
    (h1 : findStars (pyStrip line) = some (p, r))
    (h2 : findStars r = none)
    (hh2 : "## ".data.isPrefixOf (pyStrip line) = false)
    (hh1 : "# ".data.isPrefixOf (pyStrip line) = false)
    (hb1 : "* ".data.isPrefixOf (pyStrip line) = false)
    (hb2 : "- ".data.isPrefixOf (pyStrip line) = false) :
    boldParts (pyStrip line) = [(pyStrip line, false)] ∧
    processLine line ci =
      ([Req.insertText ci (pyStrip line),
        Req.insertText (ci + (pyStrip line).length) ['\n']],
       ci + (pyStrip line).length + 1) :=
  ⟨boldParts_nomatch h1 h2,
   processLine_bold_nomatch ci h1 h2 hh2 hh1 hb1 hb2⟩

/-- C9 witness: the concrete malformed line "a**b" (one unmatched '**'). -/
theorem c9_witness :
    boldParts "a**b".data = [("a**b".data, false)] ∧
    processLine "a**b".data 1 =
      ([Req.insertText 1 "a**b".data, Req.insertText 5 ['\n']], 6) :=
  c9_unmatched_bold_safe "a**b".data 1 ['a'] ['b'] (by decide) (by decide)
    (by decide) (by decide) (by decide) (by decide)

/-- C10: the empty input produces exactly one operation, InsertText of "\n"
at index 1; and for every input ending in a newline the final emitted
operation is an InsertText of "\n" (for the empty segment after the last
newline). -/
theorem c10_empty_and_trailing :
    apply_basic_markdown_to_docs_requests "" = [Req.insertText 1 ['\n']] ∧
      ∀ s : String, s.data.getLast? = some '\n' →
        ∃ i, (apply_basic_markdown_to_docs_requests s).getLast? =
          some (Req.insertText i ['\n']) := by
  refine ⟨rfl, ?_⟩
  intro s hs
  obtain ⟨t, ht⟩ := List.getLast?_eq_some_iff.mp hs
  show ∃ i, (go (splitOnNl s.data) 1).getLast? = _
  rw [ht, splitOnNl_concat_nl]
  exact go_trailing (splitOnNl t) 1

/-- C10 witness: the input "a\n" ends in a newline, and its last operation
is an InsertText of "\n". -/
theorem c10_witness :
    ∃ i, (apply_basic_markdown_to_docs_requests "a\n").getLast? =
      some (Req.insertText i ['\n']) :=
  c10_empty_and_trailing.2 "a\n" (by decide)

end GeradorTretp
